import Mathlib

/-!
Shallow embedding of the Vinox voxel chunk storage module
(vinox-common/src/world/chunks/storage.rs) and of the client chunk-manager
radius enumeration (vinox-client/src/states/game/world/chunks.rs).

Rust machine integers (usize, u16, i32) are modelled as Nat / Int; every
operation studied here keeps its values far below any machine-width bound
(this is argued at the places where it matters).  Operations that can panic
in Rust (slice indexing out of range, Option::unwrap / expect) are modelled
as Option-returning functions where a claim depends on the panic, with none
standing for the panic.
-/

namespace Vinox

/-- Rust: pub const CHUNK_SIZE: usize = 16. -/
def CHUNK_SIZE : Nat := 16

/-- Rust: pub const TOTAL_CHUNK_SIZE = CHUNK_SIZE * CHUNK_SIZE * CHUNK_SIZE. -/
def TOTAL_CHUNK_SIZE : Nat := CHUNK_SIZE * CHUNK_SIZE * CHUNK_SIZE

/-- Rust enum VoxelVisibility, default Empty. -/
inductive VoxelVisibility where
  | Empty
  | Opaque
  | Transparent
deriving DecidableEq

/-- Rust enum Direction, default North. -/
inductive Direction where
  | North
  | West
  | East
  | South
deriving DecidableEq

/-- Rust enum GrowthState, default Planted. -/
inductive GrowthState where
  | Planted
  | Sapling
  | Young
  | Ripe
  | Spoiled
deriving DecidableEq

/-- Rust struct Container { items: Vec of String, max_size: u8 }. -/
structure Container where
  items : List String
  max_size : Nat
deriving DecidableEq

/-- Rust struct BlockData.  The Rust field namespace is a reserved word in
Lean and is rendered nspace here. -/
structure BlockData where
  nspace : String
  name : String
  direction : Option Direction
  container : Option Container
  growth_state : Option GrowthState
  last_tick : Option Nat
  arbitary_data : Option String
  top : Option Bool
deriving DecidableEq

/-- Rust fn name_to_identifier: namespace, then a colon, then the name. -/
def name_to_identifier (nspace name : String) : String :=
  nspace ++ ":" ++ name

/-- Rust impl Default for BlockData: vinox:air with all optional fields None. -/
def BlockData.default : BlockData :=
  ⟨"vinox", "air", none, none, none, none, none, none⟩

/-- Rust BlockData::new(namespace, name). -/
def BlockData.new (nspace name : String) : BlockData :=
  { BlockData.default with nspace := nspace, name := name }

/-- Modelled from the spec: the block-type metadata record (the Rust
BlockDescriptor, whose source file is not part of the provided sources);
per the spec the block-type lookup table maps an identifier string to
metadata including a visibility classification, and only the (optional)
visibility field is consulted by the emptiness queries studied here. -/
structure BlockDescriptor where
  visibility : Option VoxelVisibility
deriving DecidableEq

/-- Rust BlockTable (an FxHashMap from identifier strings to descriptors),
modelled as an association list; hash-map get is modelled by lookup. -/
abbrev BlockTable := List (String × BlockDescriptor)

/-- Rust BlockData::is_empty.  The Rust code unwraps the table lookup, so a
missing identifier panics: that panic is modelled by none.  When the entry
exists, a missing visibility field defaults to Empty (unwrap_or_default). -/
def BlockData.is_empty (b : BlockData) (block_table : BlockTable) : Option Bool :=
  (block_table.lookup (name_to_identifier b.nspace b.name)).map
    (fun d => (d.visibility.getD VoxelVisibility.Empty) == VoxelVisibility.Empty)

/-- Rust struct BitBuffer { bytes: BitVec of u8, Lsb0 }: a flat bit sequence. -/
structure BitBuffer where
  bytes : List Bool
deriving DecidableEq

/-- The little-endian bit pattern of v, exactly len bits (bitvec store_le
keeps the len least significant bits). -/
def natToBits : Nat → Nat → List Bool
  | 0, _ => []
  | len + 1, v => (v % 2 == 1) :: natToBits len (v / 2)

/-- Little-endian decoding of a bit list (bitvec load_le, Lsb0: the head of
the list is the least significant bit). -/
def bitsToNat : List Bool → Nat
  | [] => 0
  | b :: bs => (if b then 1 else 0) + 2 * bitsToNat bs

/-- Rust BitBuffer::new(size): a zero-filled buffer of size bits. -/
def BitBuffer.new (size : Nat) : BitBuffer :=
  ⟨List.replicate size false⟩

/-- Rust BitBuffer::set(idx, bit_length, bits): overwrite the bit_length bits
starting at idx with the little-endian pattern of bits.  The Rust slice
indexing panics when idx + bit_length exceeds the buffer length; every call
site studied here is proved in range, where this take/append/drop form agrees
exactly with the Rust behaviour. -/
def BitBuffer.set (bb : BitBuffer) (idx bit_length bits : Nat) : BitBuffer :=
  ⟨bb.bytes.take idx ++ natToBits bit_length bits ++ bb.bytes.drop (idx + bit_length)⟩

/-- Rust BitBuffer::get(idx, bit_length): little-endian decode of the bits in
[idx, idx + bit_length).  Out-of-range reads panic in Rust; the bounds check
is made explicit at the Storage::get level, where the claim about it lives. -/
def BitBuffer.get (bb : BitBuffer) (idx bit_length : Nat) : Nat :=
  bitsToNat ((bb.bytes.drop idx).take bit_length)

/-- Rust struct PaletteEntry { voxel_type: BlockData, ref_count: usize }. -/
structure PaletteEntry where
  voxel_type : BlockData
  ref_count : Nat
deriving DecidableEq

/-- Rust struct SingleStorage: compressed storage for a uniform volume. -/
structure SingleStorage where
  size : Nat
  voxel : BlockData
deriving DecidableEq

/-- Rust struct MultiStorage: palette-compressed storage. -/
structure MultiStorage where
  size : Nat
  data : BitBuffer
  palette : List PaletteEntry
  palette_capacity : Nat
  indices_length : Nat
deriving DecidableEq

/-- Rust if let Some(target) = vec.get_mut(i) followed by a field update:
apply f at index i, no-op when i is out of range. -/
def listModify {α : Type} (l : List α) (i : Nat) (f : α → α) : List α :=
  match l, i with
  | [], _ => []
  | a :: as_, 0 => f a :: as_
  | a :: as_, n + 1 => a :: listModify as_ n f

/-- Rust iter().enumerate().find_map / find on a predicate: the index of the
first element satisfying p. -/
def findIdxOf {α : Type} (p : α → Bool) : List α → Option Nat
  | [] => none
  | a :: as_ => if p a then some 0 else (findIdxOf p as_).map (· + 1)

/-- Rust MultiStorage::new(size, initial_voxel): 2-bit indices (palette
capacity 4), palette seeded with the old uniform voxel at ref-count size,
and a zeroed bit buffer of size * indices_length bits. -/
def MultiStorage.new (size : Nat) (initial_voxel : BlockData) : MultiStorage :=
  let indices_length := 2
  let initial_capacity := 2 ^ indices_length
  { size := size
    data := BitBuffer.new (size * indices_length)
    palette := [⟨initial_voxel, size⟩]
    palette_capacity := initial_capacity
    indices_length := indices_length }

/-- Rust MultiStorage::grow_palette: decode every slot index, double the
index bit width (indices_length <<= 1), allocate a fresh zeroed buffer at
the wider width and re-encode every index into it. -/
def MultiStorage.grow_palette (s : MultiStorage) : MultiStorage :=
  let indices : List Nat :=
    (List.range s.size).map (fun i => s.data.get (i * s.indices_length) s.indices_length)
  let indices_length := s.indices_length * 2
  let new_capacity := 2 ^ indices_length
  let data :=
    (indices.enum).foldl
      (fun d p => d.set (p.1 * indices_length) indices_length p.2)
      (BitBuffer.new (s.size * indices_length))
  { s with
    indices_length := indices_length
    palette_capacity := new_capacity
    data := data }

/-- The tail of Rust Storage::set in the Multi arm, entered when the voxel is
not present in the (already decremented) palette and the slot's own entry
could not be overwritten: recycle the first ref-count-0 entry if any, else
push a brand-new entry (growing the palette first when at capacity), and
write the resulting palette index into the slot. -/
def MultiStorage.createEntry (s : MultiStorage) (target_idx : Nat) (voxel : BlockData) :
    MultiStorage :=
  match findIdxOf (fun e => e.ref_count == 0) s.palette with
  | some i =>
      { s with
        palette := s.palette.set i ⟨voxel, 1⟩
        data := s.data.set (target_idx * s.indices_length) s.indices_length i }
  | none =>
      let s' := if s.palette.length = s.palette_capacity then s.grow_palette else s
      let palette' := s'.palette ++ [⟨voxel, 1⟩]
      { s' with
        palette := palette'
        data := s'.data.set (target_idx * s'.indices_length) s'.indices_length
          (palette'.length - 1) }

/-- The Multi arm of Rust Storage::set: decode the slot's current palette
index, decrement that entry's ref-count, then either reuse an existing entry
holding the voxel, overwrite the slot's own entry when its ref-count reached
zero, or fall through to recycle/push (MultiStorage.createEntry). -/
def MultiStorage.setVoxel (s : MultiStorage) (target_idx : Nat) (voxel : BlockData) :
    MultiStorage :=
  let palette_target_idx := s.data.get (target_idx * s.indices_length) s.indices_length
  let s1 := { s with
    palette := listModify s.palette palette_target_idx
      (fun e => { e with ref_count := e.ref_count - 1 }) }
  match findIdxOf (fun e => e.voxel_type == voxel) s1.palette with
  | some idx =>
      { s1 with
        data := s1.data.set (target_idx * s1.indices_length) s1.indices_length idx
        palette := listModify s1.palette idx
          (fun e => { e with ref_count := e.ref_count + 1 }) }
  | none =>
      match s1.palette[palette_target_idx]? with
      | some target =>
          if target.ref_count = 0 then
            { s1 with palette := s1.palette.set palette_target_idx ⟨voxel, 1⟩ }
          else s1.createEntry target_idx voxel
      | none => s1.createEntry target_idx voxel

/-- Rust enum Storage { Single(SingleStorage), Multi(MultiStorage) }. -/
inductive Storage where
  | Single (storage : SingleStorage)
  | Multi (storage : MultiStorage)
deriving DecidableEq

/-- Rust Storage::new(size): Uniform storage holding the default voxel. -/
def Storage.new (size : Nat) : Storage :=
  .Single ⟨size, BlockData.default⟩

/-- Rust Storage::toggle_storage_type.  In the Multi to Single direction the
Rust code asserts palette.len() == 1 and reads palette[0]; both call sites
guarantee a non-empty palette, and the empty-palette arm (unreachable, a
panic in Rust) is rendered with the default voxel. -/
def Storage.toggle_storage_type (s : Storage) : Storage :=
  match s with
  | .Single st => .Multi (MultiStorage.new st.size st.voxel)
  | .Multi st =>
      match st.palette with
      | entry :: _ => .Single ⟨st.size, entry.voxel_type⟩
      | [] => .Single ⟨st.size, BlockData.default⟩

/-- Rust Storage::set.  In the Single arm a differing voxel toggles to Multi
form and retries the set (the recursive self.set call lands in the Multi
arm, here inlined as MultiStorage.setVoxel on the freshly promoted storage). -/
def Storage.set (s : Storage) (target_idx : Nat) (voxel : BlockData) : Storage :=
  match s with
  | .Single st =>
      if st.voxel ≠ voxel then
        .Multi ((MultiStorage.new st.size st.voxel).setVoxel target_idx voxel)
      else s
  | .Multi st => .Multi (st.setVoxel target_idx voxel)

/-- Rust Storage::get.  The Single arm returns the uniform voxel with no
bounds check at all.  The Multi arm slices the bit buffer (a panic, rendered
none, when idx * indices_length + indices_length exceeds the buffer length)
and then expects the palette entry (a panic, rendered none, on a miss). -/
def Storage.get (s : Storage) (idx : Nat) : Option BlockData :=
  match s with
  | .Single st => some st.voxel
  | .Multi st =>
      if idx * st.indices_length + st.indices_length ≤ st.data.bytes.length then
        (st.palette[st.data.get (idx * st.indices_length) st.indices_length]?).map
          (fun e => e.voxel_type)
      else none

/-- Rust Storage::trim: no-op on Single; on Multi, collapse back to Single
exactly when the palette vector has length one. -/
def Storage.trim (s : Storage) : Storage :=
  match s with
  | .Single _ => s
  | .Multi st => if st.palette.length = 1 then s.toggle_storage_type else s

/-- Rust struct RawChunk { voxels: Storage }. -/
structure RawChunk where
  voxels : Storage

/-- Rust struct ChunkData { voxels, change_count: u16, dirty: bool }.  The
change counter is reset to 0 whenever it exceeds 500, so it never reaches
the u16 wrap-around and Nat models it exactly. -/
structure ChunkData where
  voxels : Storage
  change_count : Nat
  dirty : Bool

/-- Rust impl Default for ChunkData: fresh uniform storage of the full chunk
volume, zero writes, dirty. -/
def ChunkData.default : ChunkData :=
  ⟨Storage.new TOTAL_CHUNK_SIZE, 0, true⟩

/-- Rust ChunkData::linearize via ndshape, x-fastest: x + y * edge + z * edge². -/
def ChunkData.linearize (x y z : Nat) : Nat :=
  x + y * CHUNK_SIZE + z * CHUNK_SIZE * CHUNK_SIZE

/-- Rust ChunkData::get(x, y, z). -/
def ChunkData.get (c : ChunkData) (x y z : Nat) : Option BlockData :=
  c.voxels.get (ChunkData.linearize x y z)

/-- Rust ChunkData::set(x, y, z, voxel): delegates to storage, increments the
write counter, marks dirty; when the incremented counter exceeds 500 the
storage is trimmed and the counter reset to 0. -/
def ChunkData.set (c : ChunkData) (x y z : Nat) (voxel : BlockData) : ChunkData :=
  let voxels := c.voxels.set (ChunkData.linearize x y z) voxel
  let change_count := c.change_count + 1
  if change_count > 500 then
    { voxels := voxels.trim, change_count := 0, dirty := true }
  else
    { voxels := voxels, change_count := change_count, dirty := true }

/-- Rust ChunkData::is_uniform: the storage variant tag. -/
def ChunkData.is_uniform (c : ChunkData) : Bool :=
  match c.voxels with
  | .Single _ => true
  | .Multi _ => false

/-- Rust ChunkData::is_empty: uniform and the voxel at (0,0,0) classifies as
Empty; the short-circuiting means a non-uniform chunk answers false without
touching the block table, while a uniform chunk inherits the possible
lookup-miss panic (none) of BlockData::is_empty. -/
def ChunkData.is_empty (c : ChunkData) (block_table : BlockTable) : Option Bool :=
  if c.is_uniform then (c.get 0 0 0).bind (fun b => b.is_empty block_table)
  else some false

/-- Rust ChunkData::is_dirty. -/
def ChunkData.is_dirty (c : ChunkData) : Bool := c.dirty

/-- Rust ChunkData::set_dirty. -/
def ChunkData.set_dirty (c : ChunkData) (dirty : Bool) : ChunkData :=
  { c with dirty := dirty }

/-- Rust ChunkData::trim: delegates to the storage. -/
def ChunkData.trim (c : ChunkData) : ChunkData :=
  { c with voxels := c.voxels.trim }

/-- Rust ChunkData::size(): the logical volume, edge³. -/
def ChunkData.size : Nat := TOTAL_CHUNK_SIZE

/-- Rust ChunkData::edge(). -/
def ChunkData.edge : Nat := CHUNK_SIZE

/-- Rust ChunkData::from_raw: adopt the snapshot's storage, zero writes, not
dirty. -/
def ChunkData.from_raw (raw : RawChunk) : ChunkData :=
  ⟨raw.voxels, 0, false⟩

/-- Rust ChunkData::to_raw: a storage-only snapshot. -/
def ChunkData.to_raw (c : ChunkData) : RawChunk :=
  ⟨c.voxels⟩

/-- Rust struct ViewRadius (vinox-common ecs, fields as used by the client):
horizontal and vertical chunk radii, i32. -/
structure ViewRadius where
  horizontal : Int
  vertical : Int

/-- The half-open integer range [lo, hi), as iterated by a Rust lo..hi loop. -/
def intRange (lo hi : Int) : List Int :=
  (List.range (hi - lo).toNat).map (fun i : Nat => lo + (i : Int))

/-- Rust ChunkManager::get_chunk_positions, before its final sort: the x/z/y
triple loop skips offsets with x² + z² ≥ horizontal², scales the offset by
CHUNK_SIZE, adds it to the centre, and clamps the resulting y to at least 0.
The trailing sort_unstable_by_key (by floating-point Euclidean distance from
the centre) only permutes this list, so membership and multiset statements
about the returned list are statements about this one. -/
def get_chunk_positions (chunk_pos : Int × Int × Int) (view_radius : ViewRadius) :
    List (Int × Int × Int) :=
  (intRange (-view_radius.horizontal) view_radius.horizontal).flatMap fun x =>
    (intRange (-view_radius.horizontal) view_radius.horizontal).flatMap fun z =>
      (intRange (-view_radius.vertical) view_radius.vertical).filterMap fun y =>
        if x ^ 2 + z ^ 2 ≥ view_radius.horizontal ^ 2 then none
        else
          some (chunk_pos.1 + x * (CHUNK_SIZE : Int),
                max (chunk_pos.2.1 + y * (CHUNK_SIZE : Int)) 0,
                chunk_pos.2.2 + z * (CHUNK_SIZE : Int))

/-- Specification-side view: the palette index currently stored for slot i. -/
def MultiStorage.slot (s : MultiStorage) (i : Nat) : Nat :=
  s.data.get (i * s.indices_length) s.indices_length

/-- Specification-side view: the number of slots whose decoded index is k. -/
def MultiStorage.occupancy (s : MultiStorage) (k : Nat) : Nat :=
  ((Finset.range s.size).filter (fun i => s.slot i = k)).card

/-- Specification-side view: the ref-count of palette entry k (0 when k is
out of range). -/
def MultiStorage.refCount (s : MultiStorage) (k : Nat) : Nat :=
  (s.palette[k]?).elim 0 PaletteEntry.ref_count

/-- Pointwise functional update, the abstract effect of one set. -/
def writeAt (mem : Nat → BlockData) (t : Nat) (v : BlockData) : Nat → BlockData :=
  fun i => if i = t then v else mem i

/-- Apply a list of (index, voxel) set operations to a Storage. -/
def setList (s : Storage) (ops : List (Nat × BlockData)) : Storage :=
  ops.foldl (fun acc op => acc.set op.1 op.2) s

/-- The abstract contents after a list of set operations, starting all
default: the value most recently set at each index. -/
def modelRun (ops : List (Nat × BlockData)) : Nat → BlockData :=
  ops.foldl (fun mem op => writeAt mem op.1 op.2) (fun _ => BlockData.default)

/-- The coupled invariant of a paletted storage: well-formed sizes and
capacities, every slot decoding to a live palette position, ref-counts equal
to true occupancy, and the decoded voxels agreeing with the abstract
contents mem. -/
structure MultiStorage.Inv (s : MultiStorage) (mem : Nat → BlockData) : Prop where
  data_len : s.data.bytes.length = s.size * s.indices_length
  len_pos : 0 < s.indices_length
  cap : s.palette_capacity = 2 ^ s.indices_length
  pal_le : s.palette.length ≤ s.palette_capacity
  slot_lt : ∀ i, i < s.size → s.slot i < s.palette.length
  occ : ∀ k, s.occupancy k = s.refCount k
  voxel_at : ∀ i, i < s.size →
    (s.palette[s.slot i]?).map PaletteEntry.voxel_type = some (mem i)

/-- The invariant lifted to the Storage variant, tied to a logical size. -/
def Storage.Inv (s : Storage) (size : Nat) (mem : Nat → BlockData) : Prop :=
  match s with
  | .Single st => st.size = size ∧ ∀ i, i < size → mem i = st.voxel
  | .Multi st => st.size = size ∧ st.Inv mem

/-- One value-level no-op write: set the default (air) voxel at (0,0,0),
used to count writes against the trim threshold. -/
def airWrite (c : ChunkData) : ChunkData :=
  c.set 0 0 0 BlockData.default

/-- The paletted payload of a storage, none when uniform. -/
def multiOf (s : Storage) : Option MultiStorage :=
  match s with
  | .Single _ => none
  | .Multi m => some m

/-- The number of palette entries with non-zero ref-count; a uniform storage
holds exactly one live value. -/
def livePaletteEntries (s : Storage) : Nat :=
  match s with
  | .Single _ => 1
  | .Multi m => m.palette.countP (fun e => e.ref_count != 0)

/-- The length of the palette vector; 1 for uniform storage. -/
def paletteLength (s : Storage) : Nat :=
  match s with
  | .Single _ => 1
  | .Multi m => m.palette.length

/-- The promote-then-revert scenario of the spec, at logical size 2: a fresh
uniform storage, one divergent write (promoting it to paletted form), then
the same slot overwritten back to the original uniform value.  Afterwards
exactly one palette entry is live, but the palette vector still has two
entries. -/
def promoteRevert : Storage :=
  ((Storage.new 2).set 0 (BlockData.new "vinox" "stone")).set 0 BlockData.default

/-- Five distinct voxels written into a size-8 storage: together with the
default entry this exceeds the initial palette capacity of 4 and forces one
palette growth. -/
def opsGrow : List (Nat × BlockData) :=
  [(0, BlockData.new "vinox" "a"), (1, BlockData.new "vinox" "b"),
   (2, BlockData.new "vinox" "c"), (3, BlockData.new "vinox" "d"),
   (4, BlockData.new "vinox" "e")]

/-! ### Bit-level lemmas -/

theorem natToBits_length (len v : Nat) : (natToBits len v).length = len := by
  induction len generalizing v with
  | zero => rfl
  | succ n ih => simp [natToBits, ih]

theorem bitsToNat_lt (bs : List Bool) : bitsToNat bs < 2 ^ bs.length := by
  induction bs with
  | nil => simp [bitsToNat]
  | cons b bs ih =>
    simp only [bitsToNat, List.length_cons, pow_succ]
    cases b <;> simp <;> omega

theorem bitsToNat_natToBits (len v : Nat) : bitsToNat (natToBits len v) = v % 2 ^ len := by
  induction len generalizing v with
  | zero => simp [natToBits, bitsToNat, Nat.mod_one]
  | succ n ih =>
    simp only [natToBits, bitsToNat, ih]
    have h2 : v % 2 ^ (n + 1) = v % 2 + 2 * (v / 2 % 2 ^ n) := by
      rw [pow_succ, mul_comm (2 ^ n) 2, Nat.mod_mul]
    rw [h2]
    rcases Nat.mod_two_eq_zero_or_one v with h | h <;> simp [h]

theorem bitsToNat_replicate (n : Nat) : bitsToNat (List.replicate n false) = 0 := by
  induction n with
  | zero => rfl
  | succ n ih => simpa [List.replicate_succ, bitsToNat] using ih

theorem BitBuffer.length_new (size : Nat) : (BitBuffer.new size).bytes.length = size := by
  simp [BitBuffer.new]

theorem BitBuffer.get_new (size idx len : Nat) : (BitBuffer.new size).get idx len = 0 := by
  simp [BitBuffer.new, BitBuffer.get, List.drop_replicate, List.take_replicate,
    bitsToNat_replicate]

theorem BitBuffer.length_set (bb : BitBuffer) (idx len v : Nat)
    (h : idx + len ≤ bb.bytes.length) :
    (bb.set idx len v).bytes.length = bb.bytes.length := by
  simp [BitBuffer.set, natToBits_length]
  omega

theorem BitBuffer.get_set_self (bb : BitBuffer) (idx len v : Nat)
    (h : idx + len ≤ bb.bytes.length) :
    (bb.set idx len v).get idx len = v % 2 ^ len := by
  have htake : (bb.bytes.take idx).length = idx := by simp; omega
  have hbits : (natToBits len v).length = len := natToBits_length len v
  simp only [BitBuffer.set, BitBuffer.get, List.append_assoc]
  rw [List.drop_append_eq_append_drop, htake]
  have h1 : List.drop idx (bb.bytes.take idx) = [] := by
    rw [List.drop_take]; simp
  rw [h1, Nat.sub_self, List.drop_zero, List.nil_append]
  rw [List.take_append_eq_append_take, hbits, Nat.sub_self, List.take_zero, List.append_nil]
  rw [List.take_of_length_le (le_of_eq hbits)]
  exact bitsToNat_natToBits len v

theorem BitBuffer.get_set_left (bb : BitBuffer) (idx1 len1 v idx2 len2 : Nat)
    (hsep : idx2 + len2 ≤ idx1) (hin : idx1 ≤ bb.bytes.length) :
    (bb.set idx1 len1 v).get idx2 len2 = bb.get idx2 len2 := by
  simp only [BitBuffer.set, BitBuffer.get, List.append_assoc]
  rw [List.drop_append_eq_append_drop, List.take_append_eq_append_take]
  have hlen : (List.drop idx2 (bb.bytes.take idx1)).length = idx1 - idx2 := by
    simp; omega
  have h0 : len2 - (List.drop idx2 (bb.bytes.take idx1)).length = 0 := by
    rw [hlen]; omega
  rw [h0, List.take_zero, List.append_nil]
  rw [List.drop_take, List.take_take]
  have hmin : min len2 (idx1 - idx2) = len2 := by omega
  rw [hmin]

theorem BitBuffer.get_set_right (bb : BitBuffer) (idx1 len1 v idx2 len2 : Nat)
    (hsep : idx1 + len1 ≤ idx2) (hin : idx1 ≤ bb.bytes.length) :
    (bb.set idx1 len1 v).get idx2 len2 = bb.get idx2 len2 := by
  have htake : (bb.bytes.take idx1).length = idx1 := by simp; omega
  have hbits : (natToBits len1 v).length = len1 := natToBits_length len1 v
  simp only [BitBuffer.set, BitBuffer.get, List.append_assoc]
  rw [List.drop_append_eq_append_drop, List.drop_append_eq_append_drop, htake, hbits]
  have h1 : List.drop idx2 (bb.bytes.take idx1) = [] :=
    List.drop_eq_nil_of_le (by simp; omega)
  have h2 : List.drop (idx2 - idx1) (natToBits len1 v) = [] :=
    List.drop_eq_nil_of_le (by rw [hbits]; omega)
  rw [h1, h2, List.nil_append, List.nil_append, List.drop_drop]
  have h3 : idx1 + len1 + (idx2 - idx1 - len1) = idx2 := by omega
  rw [h3]

theorem BitBuffer.get_set_slot_self (bb : BitBuffer) (L v i : Nat)
    (hin : i * L + L ≤ bb.bytes.length) :
    (bb.set (i * L) L v).get (i * L) L = v % 2 ^ L :=
  BitBuffer.get_set_self bb (i * L) L v hin

theorem BitBuffer.get_set_slot_ne (bb : BitBuffer) (L v i j : Nat)
    (hne : j ≠ i) (hin : i * L + L ≤ bb.bytes.length) :
    (bb.set (i * L) L v).get (j * L) L = bb.get (j * L) L := by
  rcases Nat.lt_or_ge j i with h | h
  · refine BitBuffer.get_set_left bb (i * L) L v (j * L) L ?_ (by omega)
    have : (j + 1) * L ≤ i * L := Nat.mul_le_mul_right L (by omega)
    calc j * L + L = (j + 1) * L := by ring
    _ ≤ i * L := this
  · have hij : i < j := by omega
    refine BitBuffer.get_set_right bb (i * L) L v (j * L) L ?_ (by omega)
    have : (i + 1) * L ≤ j * L := Nat.mul_le_mul_right L (by omega)
    calc i * L + L = (i + 1) * L := by ring
    _ ≤ j * L := this

theorem bitsToNat_take_lt (bs : List Bool) (len : Nat) :
    bitsToNat (bs.take len) < 2 ^ len := by
  have h1 : bitsToNat (bs.take len) < 2 ^ (bs.take len).length := bitsToNat_lt _
  have h2 : (bs.take len).length ≤ len := by simp
  exact lt_of_lt_of_le h1 (Nat.pow_le_pow_right (by omega) h2)

theorem BitBuffer.get_lt (bb : BitBuffer) (idx len : Nat) : bb.get idx len < 2 ^ len :=
  bitsToNat_take_lt _ _

/-! ### List helper lemmas -/

theorem length_listModify {α : Type} (l : List α) (i : Nat) (f : α → α) :
    (listModify l i f).length = l.length := by
  induction l generalizing i with
  | nil => rfl
  | cons a as ih =>
    cases i with
    | zero => rfl
    | succ n => simp [listModify, ih]

theorem getElem?_listModify {α : Type} (l : List α) (i : Nat) (f : α → α) (j : Nat) :
    (listModify l i f)[j]? = if i = j then (l[j]?).map f else l[j]? := by
  induction l generalizing i j with
  | nil => simp [listModify]
  | cons a as ih =>
    cases i with
    | zero =>
      cases j with
      | zero => simp [listModify]
      | succ m => simp [listModify]
    | succ n =>
      cases j with
      | zero => simp [listModify]
      | succ m => simpa [listModify] using ih n m

theorem findIdxOf_eq_some {α : Type} (p : α → Bool) (l : List α) (i : Nat)
    (h : findIdxOf p l = some i) : ∃ e, l[i]? = some e ∧ p e = true := by
  induction l generalizing i with
  | nil => simp [findIdxOf] at h
  | cons a as ih =>
    by_cases hpa : p a
    · simp only [findIdxOf, hpa, if_pos, Option.some.injEq] at h
      subst h
      exact ⟨a, by simp, hpa⟩
    · have h' : (findIdxOf p as).map (· + 1) = some i := by
        simpa [findIdxOf, hpa] using h
      cases hfa : findIdxOf p as with
      | none => simp [hfa] at h'
      | some i' =>
        rw [hfa] at h'
        simp only [Option.map_some', Option.some.injEq] at h'
        obtain ⟨e, he, hpe⟩ := ih i' hfa
        refine ⟨e, ?_, hpe⟩
        rw [← h', List.getElem?_cons_succ]
        exact he

theorem findIdxOf_lt_length {α : Type} (p : α → Bool) (l : List α) (i : Nat)
    (h : findIdxOf p l = some i) : i < l.length := by
  obtain ⟨e, he, -⟩ := findIdxOf_eq_some p l i h
  exact (List.getElem?_eq_some_iff.mp he).1

/-! ### Counting lemmas for occupancy bookkeeping -/

theorem card_filter_congr_update (size t : Nat) (ht : t < size) (f g : Nat → Nat) (k : Nat)
    (hagree : ∀ i, i < size → i ≠ t → f i = g i) :
    ((Finset.range size).filter (fun i => g i = k)).card + (if f t = k then 1 else 0) =
      ((Finset.range size).filter (fun i => f i = k)).card + (if g t = k then 1 else 0) := by
  have hmem : t ∈ Finset.range size := Finset.mem_range.mpr ht
  have hins : insert t ((Finset.range size).erase t) = Finset.range size :=
    Finset.insert_erase hmem
  have hnot : t ∉ (Finset.range size).erase t := Finset.not_mem_erase t _
  have hfe : ((Finset.range size).erase t).filter (fun i => g i = k) =
      ((Finset.range size).erase t).filter (fun i => f i = k) := by
    refine Finset.filter_congr ?_
    intro x hx
    rcases Finset.mem_erase.mp hx with ⟨hxt, hxr⟩
    rw [hagree x (Finset.mem_range.mp hxr) hxt]
  have key : ∀ h : Nat → Nat,
      ((Finset.range size).filter (fun i => h i = k)).card =
        (((Finset.range size).erase t).filter (fun i => h i = k)).card +
          (if h t = k then 1 else 0) := by
    intro h
    conv_lhs => rw [← hins]
    rw [Finset.filter_insert]
    by_cases hht : h t = k
    · rw [if_pos hht, if_pos hht,
        Finset.card_insert_of_not_mem (fun hc => hnot (Finset.mem_of_mem_filter t hc))]
    · rw [if_neg hht, if_neg hht, Nat.add_zero]
  rw [key f, key g, hfe]
  omega

theorem MultiStorage.occupancy_add_eq (s s' : MultiStorage) (t : Nat) (ht : t < s.size)
    (hsize : s'.size = s.size)
    (hslot : ∀ i, i < s.size → i ≠ t → s'.slot i = s.slot i) (k : Nat) :
    s'.occupancy k + (if s.slot t = k then 1 else 0) =
      s.occupancy k + (if s'.slot t = k then 1 else 0) := by
  unfold MultiStorage.occupancy
  rw [hsize]
  exact card_filter_congr_update s.size t ht s.slot s'.slot k
    (fun i hi hit => (hslot i hi hit).symm)

theorem MultiStorage.occupancy_pos (s : MultiStorage) (t : Nat) (ht : t < s.size) :
    0 < s.occupancy (s.slot t) :=
  Finset.card_pos.mpr ⟨t, Finset.mem_filter.mpr ⟨Finset.mem_range.mpr ht, rfl⟩⟩

theorem MultiStorage.eq_of_occupancy_le_one (s : MultiStorage) (k i j : Nat)
    (hocc : s.occupancy k ≤ 1) (hi : i < s.size) (hsi : s.slot i = k)
    (hj : j < s.size) (hsj : s.slot j = k) : i = j := by
  by_contra hne
  have hsub : ({i, j} : Finset ℕ) ⊆ (Finset.range s.size).filter (fun x => s.slot x = k) := by
    intro x hx
    rcases Finset.mem_insert.mp hx with rfl | hx'
    · exact Finset.mem_filter.mpr ⟨Finset.mem_range.mpr hi, hsi⟩
    · rcases Finset.mem_singleton.mp hx' with rfl
      exact Finset.mem_filter.mpr ⟨Finset.mem_range.mpr hj, hsj⟩
  have h2 : 2 ≤ s.occupancy k := by
    calc (2 : ℕ) = ({i, j} : Finset ℕ).card := (Finset.card_pair hne).symm
    _ ≤ _ := Finset.card_le_card hsub
  omega

theorem MultiStorage.slot_ne_of_occupancy_zero (s : MultiStorage) (k : Nat)
    (h : s.occupancy k = 0) (i : Nat) (hi : i < s.size) : s.slot i ≠ k := by
  intro hk
  have : 0 < s.occupancy k :=
    Finset.card_pos.mpr ⟨i, Finset.mem_filter.mpr ⟨Finset.mem_range.mpr hi, hk⟩⟩
  omega

theorem sum_map_getElem? {α : Type} (f : α → Nat) (l : List α) :
    (l.map f).sum = ∑ k in Finset.range l.length, (l[k]?).elim 0 f := by
  induction l with
  | nil => simp
  | cons a as ih =>
    rw [List.map_cons, List.sum_cons, List.length_cons, Finset.sum_range_succ']
    simp only [List.getElem?_cons_succ, List.getElem?_cons_zero, Option.elim_some]
    rw [ih]
    omega

/-! ### The re-encoding fold used by grow_palette -/

theorem foldl_set_slots_length (L : Nat) (l : List Nat) (start : Nat) (b : BitBuffer)
    (hb : (start + l.length) * L ≤ b.bytes.length) :
    ((List.enumFrom start l).foldl (fun d p => d.set (p.1 * L) L p.2) b).bytes.length =
      b.bytes.length := by
  induction l generalizing start b with
  | nil => rfl
  | cons a as ih =>
    rw [List.enumFrom_cons, List.foldl_cons]
    have hstep : start * L + L ≤ b.bytes.length := by
      have h1 : (start + 1) * L ≤ (start + (a :: as).length) * L :=
        Nat.mul_le_mul_right L (by simp)
      have h2 : start * L + L = (start + 1) * L := by ring
      omega
    have hlen := BitBuffer.length_set b (start * L) L a hstep
    have hb' : (start + 1 + as.length) * L ≤ (b.set (start * L) L a).bytes.length := by
      rw [hlen]
      have : start + 1 + as.length = start + (a :: as).length := by simp; omega
      rw [this]
      exact hb
    rw [ih (start + 1) _ hb', hlen]

theorem foldl_set_slots_get (L : Nat) (l : List Nat) (start : Nat) (b : BitBuffer)
    (hb : (start + l.length) * L ≤ b.bytes.length) (j : Nat) :
    ((List.enumFrom start l).foldl (fun d p => d.set (p.1 * L) L p.2) b).get (j * L) L =
      if start ≤ j ∧ j < start + l.length then (l.getD (j - start) 0) % 2 ^ L
      else b.get (j * L) L := by
  induction l generalizing start b with
  | nil =>
    rw [if_neg (by simp)]
    rfl
  | cons a as ih =>
    rw [List.enumFrom_cons, List.foldl_cons]
    have hstep : start * L + L ≤ b.bytes.length := by
      have h1 : (start + 1) * L ≤ (start + (a :: as).length) * L :=
        Nat.mul_le_mul_right L (by simp)
      have h2 : start * L + L = (start + 1) * L := by ring
      omega
    have hlen := BitBuffer.length_set b (start * L) L a hstep
    have hb' : (start + 1 + as.length) * L ≤ (b.set (start * L) L a).bytes.length := by
      rw [hlen]
      have : start + 1 + as.length = start + (a :: as).length := by simp; omega
      rw [this]
      exact hb
    rw [ih (start + 1) _ hb']
    by_cases h1 : start + 1 ≤ j ∧ j < start + 1 + as.length
    · rw [if_pos h1, if_pos (by simp; omega)]
      have hjs : j - start = (j - (start + 1)) + 1 := by omega
      rw [hjs, List.getD_cons_succ]
    · rw [if_neg h1]
      by_cases h2 : j = start
      · subst h2
        rw [BitBuffer.get_set_slot_self b L a j hstep]
        rw [if_pos (by simp)]
        simp
      · rw [BitBuffer.get_set_slot_ne b L a start j h2 hstep]
        rw [if_neg (by simp; omega)]

/-- Characterization of grow_palette: size and palette untouched, the index
width doubled, the capacity squared, the buffer reallocated at the wider
width, and every slot's decoded index preserved. -/
theorem MultiStorage.grow_palette_spec (s : MultiStorage)
    (hL : 0 < s.indices_length)
    (_hlen : s.data.bytes.length = s.size * s.indices_length) :
    (s.grow_palette).size = s.size ∧
    (s.grow_palette).palette = s.palette ∧
    (s.grow_palette).indices_length = s.indices_length * 2 ∧
    (s.grow_palette).palette_capacity = 2 ^ (s.indices_length * 2) ∧
    (s.grow_palette).data.bytes.length = s.size * (s.indices_length * 2) ∧
    (∀ i, i < s.size → (s.grow_palette).slot i = s.slot i) := by
  set L' := s.indices_length * 2 with hL'
  have hmap : ∀ i, i < s.size →
      ((List.range s.size).map
        (fun i => s.data.get (i * s.indices_length) s.indices_length)).getD i 0 = s.slot i := by
    intro i hi
    unfold List.getD
    rw [List.get?_eq_getElem?, List.getElem?_map, List.getElem?_range hi]
    rfl
  have hlength : ((List.range s.size).map
      (fun i => s.data.get (i * s.indices_length) s.indices_length)).length = s.size := by
    simp
  have hbase : (0 + ((List.range s.size).map
      (fun i => s.data.get (i * s.indices_length) s.indices_length)).length) * L' ≤
      (BitBuffer.new (s.size * L')).bytes.length := by
    rw [hlength, BitBuffer.length_new, Nat.zero_add]
  refine ⟨rfl, rfl, rfl, rfl, ?_, ?_⟩
  · show (_ : BitBuffer).bytes.length = _
    rw [show (MultiStorage.grow_palette s).data =
      ((((List.range s.size).map
          (fun i => s.data.get (i * s.indices_length) s.indices_length)).enumFrom 0).foldl
        (fun d p => d.set (p.1 * L') L' p.2) (BitBuffer.new (s.size * L'))) from rfl]
    rw [foldl_set_slots_length L' _ 0 _ hbase, BitBuffer.length_new]
  · intro i hi
    show (_ : BitBuffer).get (i * L') L' = _
    rw [show (MultiStorage.grow_palette s).data =
      ((((List.range s.size).map
          (fun i => s.data.get (i * s.indices_length) s.indices_length)).enumFrom 0).foldl
        (fun d p => d.set (p.1 * L') L' p.2) (BitBuffer.new (s.size * L'))) from rfl]
    rw [foldl_set_slots_get L' _ 0 _ hbase i]
    rw [if_pos (by rw [hlength]; omega)]
    rw [Nat.sub_zero, hmap i hi]
    have hslot_lt : s.slot i < 2 ^ L' := by
      have h1 : s.slot i < 2 ^ s.indices_length := BitBuffer.get_lt _ _ _
      have h2 : (2 : Nat) ^ s.indices_length ≤ 2 ^ L' :=
        Nat.pow_le_pow_right (by omega) (by omega)
      omega
    exact Nat.mod_eq_of_lt hslot_lt

/-! ### Invariant preservation -/

theorem writeAt_self (mem : Nat → BlockData) (t : Nat) (v : BlockData) :
    writeAt mem t v t = v := by
  simp [writeAt]

theorem writeAt_ne (mem : Nat → BlockData) (t : Nat) (v : BlockData) (i : Nat) (h : i ≠ t) :
    writeAt mem t v i = mem i := by
  simp [writeAt, h]

/-- The common shape of a successful paletted write: the target slot is
re-pointed at palette position n, whose ref-count is one above its value in
the (already decremented) pre-state u, every other entry keeping its
ref-count; this covers the reuse, recycle and push branches of set. -/
theorem MultiStorage.write_step_Inv (u R : MultiStorage) (mem : Nat → BlockData)
    (t : Nat) (v : BlockData) (n : Nat) (P : List PaletteEntry)
    (ht : t < u.size)
    (hdl : u.data.bytes.length = u.size * u.indices_length)
    (hLpos : 0 < u.indices_length)
    (hcap : u.palette_capacity = 2 ^ u.indices_length)
    (hslt : ∀ i, i < u.size → u.slot i < u.palette.length)
    (hocc : ∀ k, u.occupancy k = u.refCount k + (if k = u.slot t then 1 else 0))
    (hnP : n < P.length)
    (hPle : P.length ≤ 2 ^ u.indices_length)
    (hlen_le : u.palette.length ≤ P.length)
    (hrcA : ∀ k, (P[k]?).elim 0 PaletteEntry.ref_count =
      u.refCount k + (if k = n then 1 else 0))
    (hvoxPn : (P[n]?).map PaletteEntry.voxel_type = some v)
    (hvox_other : ∀ i, i < u.size → i ≠ t →
      (P[u.slot i]?).map PaletteEntry.voxel_type = some (mem i))
    (hRsize : R.size = u.size)
    (hRL : R.indices_length = u.indices_length)
    (hRcap : R.palette_capacity = u.palette_capacity)
    (hRpal : R.palette = P)
    (hRdata : R.data = u.data.set (t * u.indices_length) u.indices_length n) :
    R.Inv (writeAt mem t v) := by
  have htL : t * u.indices_length + u.indices_length ≤ u.data.bytes.length := by
    rw [hdl]
    have h1 : (t + 1) * u.indices_length ≤ u.size * u.indices_length :=
      Nat.mul_le_mul_right _ (by omega)
    have h2 : t * u.indices_length + u.indices_length = (t + 1) * u.indices_length := by
      ring
    omega
  have hn2L : n < 2 ^ u.indices_length := lt_of_lt_of_le hnP hPle
  have hslot_t : R.slot t = n := by
    unfold MultiStorage.slot
    rw [hRdata, hRL, BitBuffer.get_set_slot_self u.data u.indices_length n t htL]
    exact Nat.mod_eq_of_lt hn2L
  have hslot_ne : ∀ i, i ≠ t → R.slot i = u.slot i := by
    intro i hi
    unfold MultiStorage.slot
    rw [hRdata, hRL, BitBuffer.get_set_slot_ne u.data u.indices_length n t i hi htL]
  have hoccadd : ∀ k, R.occupancy k + (if u.slot t = k then 1 else 0) =
      u.occupancy k + (if R.slot t = k then 1 else 0) :=
    MultiStorage.occupancy_add_eq u R t ht hRsize (fun i _ hit => hslot_ne i hit)
  refine ⟨?_, ?_, ?_, ?_, ?_, ?_, ?_⟩
  · rw [hRdata, hRL, hRsize, BitBuffer.length_set u.data _ _ _ htL, hdl]
  · rw [hRL]; exact hLpos
  · rw [hRcap, hRL, hcap]
  · rw [hRpal, hRcap, hcap]; exact hPle
  · intro i hi
    rw [hRsize] at hi
    rw [hRpal]
    by_cases hit : i = t
    · subst hit; rw [hslot_t]; exact hnP
    · rw [hslot_ne i hit]; exact lt_of_lt_of_le (hslt i hi) hlen_le
  · intro k
    have e1 := hoccadd k
    rw [hslot_t] at e1
    have e2 := hocc k
    have e3 : R.refCount k = u.refCount k + (if k = n then 1 else 0) := by
      unfold MultiStorage.refCount
      rw [hRpal]
      exact hrcA k
    rw [e3]
    split_ifs at e1 e2 ⊢ <;> omega
  · intro i hi
    rw [hRsize] at hi
    rw [hRpal]
    by_cases hit : i = t
    · subst hit
      rw [hslot_t, writeAt_self]
      exact hvoxPn
    · rw [hslot_ne i hit, writeAt_ne _ _ _ _ hit]
      exact hvox_other i hi hit

theorem MultiStorage.occupancy_congr (s s' : MultiStorage) (hsize : s'.size = s.size)
    (hslot : ∀ i, i < s.size → s'.slot i = s.slot i) (k : Nat) :
    s'.occupancy k = s.occupancy k := by
  unfold MultiStorage.occupancy
  rw [hsize]
  apply congrArg
  apply Finset.filter_congr
  intro x hx
  rw [hslot x (Finset.mem_range.mp hx)]

/-- Pushing a brand-new entry at the end of the palette (after the decrement,
when the voxel is absent and no entry is recyclable), assuming there is room
below the bit-width capacity. -/
theorem MultiStorage.push_step_Inv (w : MultiStorage) (mem : Nat → BlockData)
    (t : Nat) (ht : t < w.size) (v : BlockData)
    (hdl : w.data.bytes.length = w.size * w.indices_length)
    (hLpos : 0 < w.indices_length)
    (hcap : w.palette_capacity = 2 ^ w.indices_length)
    (hslt : ∀ i, i < w.size → w.slot i < w.palette.length)
    (hocc : ∀ k, w.occupancy k = w.refCount k + (if k = w.slot t then 1 else 0))
    (hvoxmem : ∀ i, i < w.size → i ≠ t →
      (w.palette[w.slot i]?).map PaletteEntry.voxel_type = some (mem i))
    (hroom : w.palette.length + 1 ≤ 2 ^ w.indices_length) :
    ({ w with
       palette := w.palette ++ [⟨v, 1⟩]
       data := w.data.set (t * w.indices_length) w.indices_length
         ((w.palette ++ [(⟨v, 1⟩ : PaletteEntry)]).length - 1) } : MultiStorage).Inv
      (writeAt mem t v) := by
  have hlenP : (w.palette ++ [(⟨v, 1⟩ : PaletteEntry)]).length = w.palette.length + 1 := by
    simp
  have hsub : (w.palette ++ [(⟨v, 1⟩ : PaletteEntry)]).length - 1 = w.palette.length := by
    rw [hlenP]
    omega
  rw [hsub]
  refine MultiStorage.write_step_Inv w _ mem t v w.palette.length
    (w.palette ++ [⟨v, 1⟩]) ht hdl hLpos hcap hslt hocc ?_ ?_ ?_ ?_ ?_ ?_
    rfl rfl rfl rfl rfl
  · rw [hlenP]; omega
  · rw [hlenP]; exact hroom
  · rw [hlenP]; omega
  · intro k
    rcases Nat.lt_trichotomy k w.palette.length with hk | hk | hk
    · rw [List.getElem?_append_left hk, if_neg (by omega)]
      simp [MultiStorage.refCount]
    · subst hk
      rw [List.getElem?_concat_length, if_pos rfl]
      have hnone : w.palette[w.palette.length]? = none := by
        simp
      simp [MultiStorage.refCount, hnone]
    · have h1 : (w.palette ++ [(⟨v, 1⟩ : PaletteEntry)])[k]? = none := by
        apply List.getElem?_eq_none
        rw [hlenP]; omega
      have h2 : w.palette[k]? = none := by
        apply List.getElem?_eq_none
        omega
      rw [h1, if_neg (by omega)]
      simp [MultiStorage.refCount, h2]
  · rw [List.getElem?_concat_length]
    rfl
  · intro i hi hit
    have hlt : w.slot i < w.palette.length := hslt i hi
    rw [List.getElem?_append_left hlt]
    exact hvoxmem i hi hit

/-- The fall-through tail of set (recycle a dead entry or push a new one,
growing the palette first when at capacity) preserves the invariant.  Here u
is the state whose target entry has already been decremented. -/
theorem MultiStorage.createEntry_Inv (u : MultiStorage) (mem : Nat → BlockData)
    (t : Nat) (ht : t < u.size) (v : BlockData)
    (hdl : u.data.bytes.length = u.size * u.indices_length)
    (hLpos : 0 < u.indices_length)
    (hcap : u.palette_capacity = 2 ^ u.indices_length)
    (hple : u.palette.length ≤ u.palette_capacity)
    (hslt : ∀ i, i < u.size → u.slot i < u.palette.length)
    (hocc : ∀ k, u.occupancy k = u.refCount k + (if k = u.slot t then 1 else 0))
    (hvoxmem : ∀ i, i < u.size → i ≠ t →
      (u.palette[u.slot i]?).map PaletteEntry.voxel_type = some (mem i)) :
    (u.createEntry t v).size = u.size ∧ (u.createEntry t v).Inv (writeAt mem t v) := by
  cases hfind : findIdxOf (fun e => e.ref_count == 0) u.palette with
  | some i0 =>
    obtain ⟨e0, he0, hpe0⟩ := findIdxOf_eq_some _ _ _ hfind
    have hrc0 : e0.ref_count = 0 := by simpa using hpe0
    have hi0len : i0 < u.palette.length := findIdxOf_lt_length _ _ _ hfind
    have hrcount0 : u.refCount i0 = 0 := by
      unfold MultiStorage.refCount
      rw [he0]
      simpa using hrc0
    simp only [MultiStorage.createEntry, hfind]
    refine ⟨by trivial, ?_⟩
    refine MultiStorage.write_step_Inv u _ mem t v i0 (u.palette.set i0 ⟨v, 1⟩)
      ht hdl hLpos hcap hslt hocc ?_ ?_ ?_ ?_ ?_ ?_ rfl rfl rfl rfl rfl
    · rw [List.length_set]; exact hi0len
    · rw [List.length_set, ← hcap]; exact hple
    · rw [List.length_set]
    · intro k
      rw [List.getElem?_set]
      by_cases hk : i0 = k
      · subst hk
        rw [if_pos rfl, if_pos hi0len, if_pos rfl]
        simp [hrcount0]
      · rw [if_neg hk, if_neg (fun hh => hk hh.symm)]
        simp [MultiStorage.refCount]
    · rw [List.getElem?_set, if_pos rfl, if_pos hi0len]
      rfl
    · intro i hi hit
      have hslot_ne_i0 : u.slot i ≠ i0 := by
        by_cases hip : i0 = u.slot t
        · intro hsi
          have hocc_i0 : u.occupancy i0 = 1 := by
            rw [hocc i0, hrcount0, if_pos hip]
          exact hit
            (MultiStorage.eq_of_occupancy_le_one u i0 i t (le_of_eq hocc_i0) hi hsi ht hip.symm)
        · have hocc_i0 : u.occupancy i0 = 0 := by
            rw [hocc i0, hrcount0, if_neg hip]
          exact MultiStorage.slot_ne_of_occupancy_zero u i0 hocc_i0 i hi
      rw [List.getElem?_set, if_neg (fun hh => hslot_ne_i0 hh.symm)]
      exact hvoxmem i hi hit
  | none =>
    by_cases hlc : u.palette.length = u.palette_capacity
    · simp only [MultiStorage.createEntry, hfind, if_pos hlc]
      obtain ⟨hg_size, hg_pal, hg_L, hg_cap, hg_dlen, hg_slot⟩ :=
        MultiStorage.grow_palette_spec u hLpos hdl
      have hg_Lpos : 0 < u.grow_palette.indices_length := by rw [hg_L]; omega
      have hg_dl : u.grow_palette.data.bytes.length =
          u.grow_palette.size * u.grow_palette.indices_length := by
        rw [hg_dlen, hg_size, hg_L]
      have hg_cap' : u.grow_palette.palette_capacity = 2 ^ u.grow_palette.indices_length := by
        rw [hg_cap, hg_L]
      have hg_slt : ∀ i, i < u.grow_palette.size →
          u.grow_palette.slot i < u.grow_palette.palette.length := by
        intro i hi
        rw [hg_size] at hi
        rw [hg_slot i hi, hg_pal]
        exact hslt i hi
      have hg_rc : ∀ k, u.grow_palette.refCount k = u.refCount k := by
        intro k
        unfold MultiStorage.refCount
        rw [hg_pal]
      have hg_occ : ∀ k, u.grow_palette.occupancy k =
          u.grow_palette.refCount k + (if k = u.grow_palette.slot t then 1 else 0) := by
        intro k
        rw [MultiStorage.occupancy_congr u u.grow_palette hg_size hg_slot k, hg_rc,
          hg_slot t ht]
        exact hocc k
      have hg_vox : ∀ i, i < u.grow_palette.size → i ≠ t →
          (u.grow_palette.palette[u.grow_palette.slot i]?).map PaletteEntry.voxel_type =
            some (mem i) := by
        intro i hi hit
        rw [hg_size] at hi
        rw [hg_pal, hg_slot i hi]
        exact hvoxmem i hi hit
      have hroom : u.grow_palette.palette.length + 1 ≤ 2 ^ u.grow_palette.indices_length := by
        rw [hg_pal, hg_L, hlc, hcap]
        have h2 : (2 : Nat) ≤ 2 ^ u.indices_length := by
          calc (2 : Nat) = 2 ^ 1 := (pow_one 2).symm
          _ ≤ 2 ^ u.indices_length := Nat.pow_le_pow_right (by omega) (by omega)
        have h3 : 2 ^ (u.indices_length * 2) = 2 ^ u.indices_length * 2 ^ u.indices_length := by
          rw [Nat.pow_mul, pow_two]
        have h4 : 2 ^ u.indices_length * 2 ≤ 2 ^ u.indices_length * 2 ^ u.indices_length :=
          Nat.mul_le_mul_left _ h2
        rw [h3]
        omega
      refine ⟨by rw [hg_size], ?_⟩
      exact MultiStorage.push_step_Inv u.grow_palette mem t (by rw [hg_size]; exact ht) v
        hg_dl hg_Lpos hg_cap' hg_slt hg_occ hg_vox hroom
    · simp only [MultiStorage.createEntry, hfind, if_neg hlc]
      refine ⟨by trivial, ?_⟩
      exact MultiStorage.push_step_Inv u mem t ht v hdl hLpos hcap hslt hocc hvoxmem
        (by omega)

/-- One paletted set preserves the coupled invariant, refining a pointwise
functional update of the abstract contents. -/
theorem MultiStorage.setVoxel_Inv (s : MultiStorage) (mem : Nat → BlockData)
    (h : s.Inv mem) (t : Nat) (ht : t < s.size) (v : BlockData) :
    (s.setVoxel t v).size = s.size ∧ (s.setVoxel t v).Inv (writeAt mem t v) := by
  obtain ⟨hdl, hLpos, hcap, hple, hslt, hocc, hvox⟩ := h
  have hpl : s.slot t < s.palette.length := hslt t ht
  have hrefp_pos : 0 < s.refCount (s.slot t) := by
    have h1 := MultiStorage.occupancy_pos s t ht
    rw [hocc (s.slot t)] at h1
    exact h1
  obtain ⟨ep, hep⟩ : ∃ e, s.palette[s.slot t]? = some e :=
    ⟨_, List.getElem?_eq_getElem hpl⟩
  have hrcp : s.refCount (s.slot t) = ep.ref_count := by
    unfold MultiStorage.refCount
    rw [hep]
    rfl
  simp only [MultiStorage.setVoxel]
  have hfold : s.data.get (t * s.indices_length) s.indices_length = s.slot t := rfl
  rw [hfold]
  set PAL := listModify s.palette (s.slot t)
    (fun e => { e with ref_count := e.ref_count - 1 }) with hPALdef
  have hlen1 : PAL.length = s.palette.length := length_listModify _ _ _
  have hrc1 : ∀ k, (PAL[k]?).elim 0 PaletteEntry.ref_count +
      (if k = s.slot t then 1 else 0) = s.refCount k := by
    intro k
    rw [hPALdef, getElem?_listModify]
    by_cases hk : s.slot t = k
    · rw [if_pos hk, if_pos hk.symm]
      subst hk
      rw [hep]
      simp only [Option.map_some', Option.elim_some]
      rw [hrcp] at hrefp_pos
      show ep.ref_count - 1 + 1 = s.refCount (s.slot t)
      rw [hrcp]
      omega
    · rw [if_neg hk, if_neg (fun hh => hk hh.symm)]
      simp [MultiStorage.refCount]
  have hvox1 : ∀ k : Nat, (PAL[k]?).map PaletteEntry.voxel_type =
      (s.palette[k]?).map PaletteEntry.voxel_type := by
    intro k
    rw [hPALdef, getElem?_listModify]
    split
    · rcases s.palette[k]? with _ | e <;> rfl
    · rfl
  have hPALp : PAL[s.slot t]? = some { ep with ref_count := ep.ref_count - 1 } := by
    rw [hPALdef, getElem?_listModify, if_pos rfl, hep]
    rfl
  have hocc1 : ∀ k, s.occupancy k = (PAL[k]?).elim 0 PaletteEntry.ref_count +
      (if k = s.slot t then 1 else 0) := by
    intro k
    rw [hocc k]
    exact (hrc1 k).symm
  have hvoxmem1 : ∀ i, i < s.size → i ≠ t →
      (PAL[s.slot i]?).map PaletteEntry.voxel_type = some (mem i) := by
    intro i hi _
    rw [hvox1 (s.slot i)]
    exact hvox i hi
  split
  · rename_i idx hfind
    obtain ⟨e1, he1, hpe1⟩ := findIdxOf_eq_some _ _ _ hfind
    have hvoxe1 : e1.voxel_type = v := by simpa using hpe1
    have hidx : idx < PAL.length := findIdxOf_lt_length _ _ _ hfind
    refine ⟨by trivial, ?_⟩
    refine MultiStorage.write_step_Inv { s with palette := PAL } _ mem t v idx
      (listModify PAL idx (fun e => { e with ref_count := e.ref_count + 1 }))
      ht hdl hLpos hcap ?_ ?_ ?_ ?_ ?_ ?_ ?_ ?_ rfl rfl rfl rfl rfl
    · intro i hi
      show s.slot i < PAL.length
      rw [hlen1]
      exact hslt i hi
    · intro k
      show s.occupancy k = (PAL[k]?).elim 0 PaletteEntry.ref_count +
        (if k = s.slot t then 1 else 0)
      exact hocc1 k
    · rw [length_listModify]
      exact hidx
    · show (listModify PAL idx (fun e => { e with ref_count := e.ref_count + 1 })).length ≤
        2 ^ s.indices_length
      rw [length_listModify, hlen1, ← hcap]
      exact hple
    · show PAL.length ≤
        (listModify PAL idx (fun e => { e with ref_count := e.ref_count + 1 })).length
      exact le_of_eq (length_listModify PAL idx _).symm
    · intro k
      show _ = (PAL[k]?).elim 0 PaletteEntry.ref_count + (if k = idx then 1 else 0)
      rw [getElem?_listModify]
      by_cases hk : idx = k
      · subst hk
        rw [if_pos rfl, if_pos rfl, he1]
        rfl
      · rw [if_neg hk, if_neg (fun hh => hk hh.symm)]
        omega
    · rw [getElem?_listModify, if_pos rfl, he1]
      show some _ = some v
      rw [← hvoxe1]
    · intro i hi hit
      show ((listModify PAL idx
          (fun e => { e with ref_count := e.ref_count + 1 }))[s.slot i]?).map
          PaletteEntry.voxel_type = some (mem i)
      rw [getElem?_listModify]
      by_cases hk : idx = s.slot i
      · rw [if_pos hk]
        have h1 : ((PAL[s.slot i]?).map
            (fun e => { e with ref_count := e.ref_count + 1 })).map PaletteEntry.voxel_type =
            (PAL[s.slot i]?).map PaletteEntry.voxel_type := by
          rcases PAL[s.slot i]? with _ | e <;> rfl
        rw [h1]
        exact hvoxmem1 i hi hit
      · rw [if_neg hk]
        exact hvoxmem1 i hi hit
  · rename_i hfind
    split
    · rename_i target htarget
      have htv : target = { ep with ref_count := ep.ref_count - 1 } := by
        have h1 := htarget.symm.trans hPALp
        exact (Option.some.injEq _ _).mp h1
      split
      · rename_i hc
        have hrc : ep.ref_count - 1 = 0 := by
          rw [htv] at hc
          exact hc
        have hep1 : ep.ref_count = 1 := by
          rw [hrcp] at hrefp_pos
          omega
        have hoccp : s.occupancy (s.slot t) = 1 := by
          rw [hocc (s.slot t), hrcp, hep1]
        refine ⟨by trivial, ?_⟩
        refine ⟨?_, ?_, ?_, ?_, ?_, ?_, ?_⟩
        · exact hdl
        · exact hLpos
        · exact hcap
        · show (PAL.set (s.slot t) ⟨v, 1⟩).length ≤ s.palette_capacity
          rw [List.length_set, hlen1]
          exact hple
        · intro i hi
          show s.slot i < (PAL.set (s.slot t) ⟨v, 1⟩).length
          rw [List.length_set, hlen1]
          exact hslt i hi
        · intro k
          show s.occupancy k = ((PAL.set (s.slot t) ⟨v, 1⟩)[k]?).elim 0 PaletteEntry.ref_count
          rw [List.getElem?_set]
          by_cases hk : s.slot t = k
          · subst hk
            rw [if_pos rfl, if_pos (by rw [hlen1]; exact hpl)]
            exact hoccp
          · rw [if_neg hk]
            have h1 := hrc1 k
            rw [if_neg (fun hh => hk hh.symm)] at h1
            rw [hocc k]
            omega
        · intro i hi
          by_cases hit : i = t
          · subst hit
            show ((PAL.set (s.slot i) ⟨v, 1⟩)[s.slot i]?).map PaletteEntry.voxel_type =
              some (writeAt mem i v i)
            rw [writeAt_self, List.getElem?_set, if_pos rfl,
              if_pos (by rw [hlen1]; exact hpl)]
            rfl
          · show ((PAL.set (s.slot t) ⟨v, 1⟩)[s.slot i]?).map PaletteEntry.voxel_type =
              some (writeAt mem t v i)
            rw [writeAt_ne _ _ _ _ hit]
            have hne : s.slot i ≠ s.slot t := by
              intro he
              exact hit
                (MultiStorage.eq_of_occupancy_le_one s (s.slot t) i t (le_of_eq hoccp)
                  hi he ht rfl)
            rw [List.getElem?_set, if_neg (fun hh => hne hh.symm)]
            exact hvoxmem1 i hi hit
      · rename_i hc
        exact MultiStorage.createEntry_Inv { s with palette := PAL } mem t ht v hdl hLpos
          hcap (by show PAL.length ≤ s.palette_capacity; rw [hlen1]; exact hple)
          (by intro i hi; show s.slot i < PAL.length; rw [hlen1]; exact hslt i hi)
          (by intro k; exact hocc1 k)
          (by intro i hi hit; exact hvoxmem1 i hi hit)
    · rename_i htarget
      rw [hPALp] at htarget
      exact absurd htarget (by simp)

theorem MultiStorage.new_seed_Inv (size : Nat) (u : BlockData) (mem : Nat → BlockData)
    (hmem : ∀ i, i < size → mem i = u) :
    (MultiStorage.new size u).Inv mem := by
  have hslot : ∀ i : Nat, (MultiStorage.new size u).slot i = 0 := by
    intro i
    unfold MultiStorage.slot
    exact BitBuffer.get_new _ _ _
  refine ⟨?_, ?_, ?_, ?_, ?_, ?_, ?_⟩
  · show (BitBuffer.new (size * 2)).bytes.length = size * 2
    exact BitBuffer.length_new _
  · show (0 : Nat) < 2
    omega
  · show (2 : Nat) ^ 2 = 2 ^ 2
    rfl
  · show (1 : Nat) ≤ 2 ^ 2
    omega
  · intro i _
    rw [hslot i]
    show (0 : Nat) < 1
    omega
  · intro k
    unfold MultiStorage.occupancy MultiStorage.refCount
    by_cases hk : k = 0
    · subst hk
      have hfil : ((Finset.range (MultiStorage.new size u).size).filter
          (fun i => (MultiStorage.new size u).slot i = 0)) =
          Finset.range (MultiStorage.new size u).size :=
        Finset.filter_true_of_mem (fun i _ => hslot i)
      rw [hfil, Finset.card_range]
      rfl
    · have hfil : ((Finset.range (MultiStorage.new size u).size).filter
          (fun i => (MultiStorage.new size u).slot i = k)) = ∅ := by
        apply Finset.filter_false_of_mem
        intro i _
        rw [hslot i]
        omega
      rw [hfil, Finset.card_empty]
      obtain ⟨m, rfl⟩ : ∃ m, k = m + 1 := ⟨k - 1, by omega⟩
      show ((([⟨u, size⟩] : List PaletteEntry))[m + 1]?).elim 0 PaletteEntry.ref_count = 0
      rfl
  · intro i hi
    rw [hslot i]
    show some u = some (mem i)
    rw [hmem i hi]

theorem Storage.new_Inv (size : Nat) :
    (Storage.new size).Inv size (fun _ => BlockData.default) :=
  ⟨rfl, fun _ _ => rfl⟩

theorem Storage.set_Inv (s : Storage) (size : Nat) (mem : Nat → BlockData)
    (h : s.Inv size mem) (t : Nat) (ht : t < size) (v : BlockData) :
    (s.set t v).Inv size (writeAt mem t v) := by
  cases s with
  | Single st =>
    obtain ⟨hsz, hmem⟩ := h
    by_cases hv : st.voxel ≠ v
    · simp only [Storage.set, if_pos hv]
      have hbase := MultiStorage.new_seed_Inv st.size st.voxel mem
        (fun i hi => hmem i (by omega))
      have hmain := MultiStorage.setVoxel_Inv (MultiStorage.new st.size st.voxel) mem hbase
        t (by show t < st.size; omega) v
      exact ⟨by rw [hmain.1]; exact hsz, hmain.2⟩
    · simp only [Storage.set, if_neg hv]
      push_neg at hv
      refine ⟨hsz, ?_⟩
      intro i hi
      unfold writeAt
      split
      · exact hv.symm
      · exact hmem i hi
  | Multi st =>
    obtain ⟨hsz, hinv⟩ := h
    have hmain := MultiStorage.setVoxel_Inv st mem hinv t (by omega) v
    exact ⟨by rw [hmain.1]; exact hsz, hmain.2⟩

theorem Storage.get_Inv (s : Storage) (size : Nat) (mem : Nat → BlockData)
    (h : s.Inv size mem) (i : Nat) (hi : i < size) :
    s.get i = some (mem i) := by
  cases s with
  | Single st =>
    obtain ⟨hsz, hmem⟩ := h
    simp [Storage.get, hmem i hi]
  | Multi st =>
    obtain ⟨hsz, hinv⟩ := h
    have hrange : i * st.indices_length + st.indices_length ≤ st.data.bytes.length := by
      rw [hinv.data_len]
      have h1 : (i + 1) * st.indices_length ≤ st.size * st.indices_length :=
        Nat.mul_le_mul_right _ (by omega)
      have h2 : i * st.indices_length + st.indices_length = (i + 1) * st.indices_length := by
        ring
      omega
    simp only [Storage.get, if_pos hrange]
    exact hinv.voxel_at i (by omega)

theorem setList_Inv (size : Nat) (ops : List (Nat × BlockData))
    (hops : ∀ op ∈ ops, op.1 < size) :
    (setList (Storage.new size) ops).Inv size (modelRun ops) := by
  unfold setList modelRun
  have key : ∀ (l : List (Nat × BlockData)) (s : Storage) (mem : Nat → BlockData),
      s.Inv size mem → (∀ op ∈ l, op.1 < size) →
      (l.foldl (fun acc op => acc.set op.1 op.2) s).Inv size
        (l.foldl (fun m op => writeAt m op.1 op.2) mem) := by
    intro l
    induction l with
    | nil => intro s mem h _; exact h
    | cons op rest ih =>
      intro s mem h hl
      simp only [List.foldl_cons]
      exact ih _ _ (Storage.set_Inv s size mem h op.1 (hl op (by simp)) op.2)
        (fun o ho => hl o (by simp [ho]))
  exact key ops _ _ (Storage.new_Inv size) hops

theorem setList_get (size : Nat) (ops : List (Nat × BlockData))
    (hops : ∀ op ∈ ops, op.1 < size) (i : Nat) (hi : i < size) :
    (setList (Storage.new size) ops).get i = some (modelRun ops i) :=
  Storage.get_Inv _ size _ (setList_Inv size ops hops) i hi

theorem MultiStorage.Inv_sum_refCount (s : MultiStorage) (mem : Nat → BlockData)
    (h : s.Inv mem) : (s.palette.map PaletteEntry.ref_count).sum = s.size := by
  rw [sum_map_getElem?]
  have h1 : ∀ k ∈ Finset.range s.palette.length,
      (s.palette[k]?).elim 0 PaletteEntry.ref_count = s.occupancy k := by
    intro k _
    exact (h.occ k).symm
  rw [Finset.sum_congr rfl h1]
  have h2 : (Finset.range s.size).card =
      ∑ k in Finset.range s.palette.length,
        ((Finset.range s.size).filter (fun i => s.slot i = k)).card :=
    Finset.card_eq_sum_card_fiberwise
      (fun i hi => Finset.mem_range.mpr (h.slot_lt i (Finset.mem_range.mp hi)))
  unfold MultiStorage.occupancy
  rw [← h2, Finset.card_range]

/-! ### Radius enumeration -/

theorem mem_intRange (lo hi a : Int) : a ∈ intRange lo hi ↔ lo ≤ a ∧ a < hi := by
  constructor
  · intro h
    obtain ⟨i, hmem, heq⟩ := List.mem_map.mp h
    have him : i < (hi - lo).toNat := List.mem_range.mp hmem
    have h0 : (0 : Int) ≤ (i : Int) := Int.natCast_nonneg i
    have h1 : (i : Int) < hi - lo := Int.lt_toNat.mp him
    have heq' : lo + (i : Int) = a := heq
    omega
  · rintro ⟨h1, h2⟩
    apply List.mem_map.mpr
    have h3 : (0 : Int) ≤ a - lo := by omega
    refine ⟨(a - lo).toNat, List.mem_range.mpr ?_, ?_⟩
    · refine Int.lt_toNat.mpr ?_
      rw [Int.toNat_of_nonneg h3]
      omega
    · show lo + ((a - lo).toNat : Int) = a
      rw [Int.toNat_of_nonneg h3]
      omega

/-- Membership characterization of the (pre-sort) radius enumeration: the
produced coordinates are the centre plus CHUNK_SIZE-scaled offsets whose
chunk-grid x/z components lie strictly inside the horizontal disc, with the
final y clamped to a minimum of 0. -/
theorem mem_get_chunk_positions (c : Int × Int × Int) (r : ViewRadius)
    (p : Int × Int × Int) :
    p ∈ get_chunk_positions c r ↔
      ∃ x z y : Int,
        (-r.horizontal ≤ x ∧ x < r.horizontal) ∧
        (-r.horizontal ≤ z ∧ z < r.horizontal) ∧
        (-r.vertical ≤ y ∧ y < r.vertical) ∧
        x ^ 2 + z ^ 2 < r.horizontal ^ 2 ∧
        p = (c.1 + x * (CHUNK_SIZE : Int),
             max (c.2.1 + y * (CHUNK_SIZE : Int)) 0,
             c.2.2 + z * (CHUNK_SIZE : Int)) := by
  unfold get_chunk_positions
  simp only [List.mem_flatMap, List.mem_filterMap, mem_intRange]
  constructor
  · rintro ⟨x, hx, z, hz, y, hy, hcond⟩
    by_cases hge : x ^ 2 + z ^ 2 ≥ r.horizontal ^ 2
    · rw [if_pos hge] at hcond
      exact absurd hcond (by simp)
    · rw [if_neg hge] at hcond
      obtain rfl := (Option.some.injEq _ _).mp hcond
      exact ⟨x, z, y, hx, hz, hy, by omega, rfl⟩
  · rintro ⟨x, z, y, hx, hz, hy, hlt, rfl⟩
    exact ⟨x, hx, z, hz, y, hy, by rw [if_neg (by omega)]⟩

/-! ### ChunkData write bookkeeping -/

theorem ChunkData.set_below_threshold (c : ChunkData) (x y z : Nat) (v : BlockData)
    (h : c.change_count + 1 ≤ 500) :
    (c.set x y z v).change_count = c.change_count + 1 ∧
    (c.set x y z v).voxels = c.voxels.set (ChunkData.linearize x y z) v ∧
    (c.set x y z v).dirty = true := by
  simp only [ChunkData.set]
  rw [if_neg (by omega)]
  exact ⟨rfl, rfl, rfl⟩

theorem ChunkData.set_above_threshold (c : ChunkData) (x y z : Nat) (v : BlockData)
    (h : 500 < c.change_count + 1) :
    (c.set x y z v).change_count = 0 ∧
    (c.set x y z v).voxels = (c.voxels.set (ChunkData.linearize x y z) v).trim ∧
    (c.set x y z v).dirty = true := by
  simp only [ChunkData.set]
  rw [if_pos (by omega)]
  exact ⟨rfl, rfl, rfl⟩

theorem Storage.set_same_single (size : Nat) (u : BlockData) (i : Nat) :
    Storage.set (Storage.Single ⟨size, u⟩) i u = Storage.Single ⟨size, u⟩ := by
  simp [Storage.set]

theorem airWrite_iterate (n : Nat) (hn : n ≤ 500) :
    (airWrite^[n] ChunkData.default).change_count = n ∧
    (airWrite^[n] ChunkData.default).voxels = Storage.new TOTAL_CHUNK_SIZE := by
  induction n with
  | zero => exact ⟨rfl, rfl⟩
  | succ m ih =>
    obtain ⟨h1, h2⟩ := ih (by omega)
    rw [Function.iterate_succ_apply']
    have hstep := ChunkData.set_below_threshold (airWrite^[m] ChunkData.default) 0 0 0
      BlockData.default (by omega)
    simp only [airWrite]
    rw [hstep.1, hstep.2.1, h1, h2]
    exact ⟨rfl, Storage.set_same_single TOTAL_CHUNK_SIZE BlockData.default _⟩

/-! ### Claim theorems -/

/-- Claim C1 (corrected): trim collapses a paletted chunk back to uniform
exactly when the palette vector has length one — not when exactly one entry
has a non-zero ref-count.  A uniform chunk is unchanged, a paletted chunk
with a palette of any other length (even when only one entry is live, as in
the promote-then-revert scenario) is unchanged, and a length-one palette
collapses to a uniform chunk holding that entry's value. -/
theorem C1_trim_collapses_iff_palette_singleton (c : ChunkData) :
    (c.is_uniform = true → c.trim = c) ∧
    (∀ m : MultiStorage, c.voxels = Storage.Multi m →
      (((c.trim).is_uniform = true) ↔ m.palette.length = 1) ∧
      (m.palette.length ≠ 1 → c.trim = c) ∧
      (∀ e : PaletteEntry, m.palette = [e] →
        (c.trim).voxels = Storage.Single ⟨m.size, e.voxel_type⟩)) := by
  obtain ⟨cv, cc, cd⟩ := c
  constructor
  · intro h
    cases cv with
    | Single st => rfl
    | Multi m => simp [ChunkData.is_uniform] at h
  · intro m hm
    have hcv : cv = Storage.Multi m := hm
    subst hcv
    refine ⟨?_, ?_, ?_⟩
    · simp only [ChunkData.trim, Storage.trim]
      by_cases hl : m.palette.length = 1
      · rw [if_pos hl]
        simp only [hl, iff_true]
        unfold Storage.toggle_storage_type
        cases hp : m.palette <;> simp [ChunkData.is_uniform, hp]
      · rw [if_neg hl]
        simp [ChunkData.is_uniform, hl]
    · intro hl
      simp only [ChunkData.trim, Storage.trim]
      rw [if_neg hl]
    · intro e he
      simp only [ChunkData.trim, Storage.trim]
      rw [if_pos (by rw [he]; rfl)]
      unfold Storage.toggle_storage_type
      simp [he]

theorem C1_witness :
    (ChunkData.from_raw ⟨promoteRevert⟩).trim = ChunkData.from_raw ⟨promoteRevert⟩ :=
  ((C1_trim_collapses_iff_palette_singleton _).2 _ rfl).2.1 (by decide)

/-- Claim C1 counterexample: after promoting a fresh uniform chunk with one
divergent write and overwriting that slot back to the original value,
exactly one palette entry has non-zero ref-count, yet trim does not restore
uniformity (the palette vector still has two entries). -/
theorem C1_counterexample :
    livePaletteEntries promoteRevert = 1 ∧
    (ChunkData.from_raw ⟨promoteRevert⟩).is_uniform = false ∧
    ((ChunkData.from_raw ⟨promoteRevert⟩).trim).is_uniform = false := by
  decide

/-- Claim C2 (corrected): for horizontal radius 10 and vertical radius 4 the
produced chunk positions are exactly the centre plus the CHUNK_SIZE-scaled
offsets (16x, 16y, 16z) of the chunk-grid offsets (x, y, z) with
x² + z² < 100, x and z in [-10, 10), y in [-4, 4), and the final y clamped
to a minimum of 0.  It is the chunk-grid offsets — not the returned
coordinates — that satisfy x² + z² < 100. -/
theorem C2_radius_positions (c p : Int × Int × Int) :
    p ∈ get_chunk_positions c ⟨10, 4⟩ ↔
      ∃ x z y : Int, -10 ≤ x ∧ x < 10 ∧ -10 ≤ z ∧ z < 10 ∧ -4 ≤ y ∧ y < 4 ∧
        x ^ 2 + z ^ 2 < 100 ∧
        p = (c.1 + x * 16, max (c.2.1 + y * 16) 0, c.2.2 + z * 16) := by
  rw [mem_get_chunk_positions]
  have hcs : ((CHUNK_SIZE : Nat) : Int) = 16 := by decide
  have h100 : ((⟨10, 4⟩ : ViewRadius).horizontal : Int) ^ 2 = 100 := by decide
  constructor
  · rintro ⟨x, z, y, hx, hz, hy, hlt, rfl⟩
    rw [h100] at hlt
    exact ⟨x, z, y, hx.1, hx.2, hz.1, hz.2, hy.1, hy.2, hlt, by rw [hcs]⟩
  · rintro ⟨x, z, y, hx1, hx2, hz1, hz2, hy1, hy2, hlt, rfl⟩
    refine ⟨x, z, y, ⟨hx1, hx2⟩, ⟨hz1, hz2⟩, ⟨hy1, hy2⟩, by rw [h100]; exact hlt, ?_⟩
    rw [hcs]

/-- Claim C2 counterexample: with horizontal radius 10 and vertical radius 4,
centred at (0,0,0), the produced positions include (16, 0, 0), whose
components violate x² + z² < 100: the coordinates are scaled by CHUNK_SIZE,
so the claimed bound fails on the returned list. -/
theorem C2_counterexample :
    ((16 : Int), (0 : Int), (0 : Int)) ∈
      get_chunk_positions (0, 0, 0) ⟨10, 4⟩ ∧
    ¬ ((16 : Int) ^ 2 + (0 : Int) ^ 2 < 100) := by
  constructor
  · rw [mem_get_chunk_positions]
    exact ⟨1, 0, 0, by constructor <;> decide, by constructor <;> decide,
      by constructor <;> decide, by decide, by decide⟩
  · decide

/-- Claim C3 (corrected): when a voxel's identifier is absent from the block
table, the emptiness query does not return normally treating the voxel as
empty — it panics (the unwrap of the missing lookup, modelled as none), and
the uniform-chunk emptiness query inherits the same panic. -/
theorem C3_is_empty_lookup_miss (b : BlockData) (t : BlockTable) (sz cc : Nat) (d : Bool)
    (h : t.lookup (name_to_identifier b.nspace b.name) = none) :
    b.is_empty t = none ∧
    ChunkData.is_empty ⟨Storage.Single ⟨sz, b⟩, cc, d⟩ t = none := by
  have h1 : b.is_empty t = none := by
    unfold BlockData.is_empty
    rw [h]
    rfl
  exact ⟨h1, h1⟩

theorem C3_witness :
    BlockData.is_empty (BlockData.new "vinox" "stone")
      [("vinox:dirt", ⟨some VoxelVisibility.Opaque⟩)] = none ∧
    ChunkData.is_empty
      ⟨Storage.Single ⟨TOTAL_CHUNK_SIZE, BlockData.new "vinox" "stone"⟩, 0, false⟩
      [("vinox:dirt", ⟨some VoxelVisibility.Opaque⟩)] = none :=
  C3_is_empty_lookup_miss (BlockData.new "vinox" "stone") _ TOTAL_CHUNK_SIZE 0 false
    (by decide)

/-- Claim C3 counterexample: a voxel whose identifier is registered nowhere
makes both emptiness queries panic (none) rather than return normally. -/
theorem C3_counterexample :
    BlockData.is_empty (BlockData.new "vinox" "stone") [] = none ∧
    ChunkData.is_empty
      (ChunkData.from_raw ⟨Storage.Single ⟨TOTAL_CHUNK_SIZE, BlockData.new "vinox" "stone"⟩⟩)
      [] = none := by
  decide

/-- Claim C4 (confirmed): after any sequence of in-range sets starting from a
fresh storage, whenever the storage is in paletted form the ref-counts sum
to the logical size and every palette position's ref-count equals the number
of slots decoding to it. -/
theorem C4_refcount_conservation (size : Nat) (ops : List (Nat × BlockData))
    (hops : ∀ op ∈ ops, op.1 < size) (m : MultiStorage)
    (hm : setList (Storage.new size) ops = Storage.Multi m) :
    (m.palette.map PaletteEntry.ref_count).sum = size ∧
    ∀ k : Nat, m.occupancy k = m.refCount k := by
  have h := setList_Inv size ops hops
  rw [hm] at h
  obtain ⟨hsz, hinv⟩ := h
  exact ⟨by rw [MultiStorage.Inv_sum_refCount m (modelRun ops) hinv]; exact hsz, hinv.occ⟩

theorem C4_witness :
    (multiOf (setList (Storage.new 2) [(0, BlockData.new "vinox" "stone")])).map
      (fun m => (m.palette.map PaletteEntry.ref_count).sum) = some 2 := by
  rcases hS : setList (Storage.new 2) [(0, BlockData.new "vinox" "stone")] with st | m
  · have hx : multiOf (setList (Storage.new 2) [(0, BlockData.new "vinox" "stone")]) =
        none := by rw [hS]; rfl
    have hy : multiOf (setList (Storage.new 2) [(0, BlockData.new "vinox" "stone")]) ≠
        none := by decide
    exact absurd hx hy
  · have h := C4_refcount_conservation 2 [(0, BlockData.new "vinox" "stone")]
      (by decide) m hS
    show some ((m.palette.map PaletteEntry.ref_count).sum) = some 2
    rw [h.1]

/-- Claim C5 (confirmed): converting a chunk to its raw snapshot and back
preserves every voxel read — the snapshot and restoration copy the storage
unchanged. -/
theorem C5_raw_roundtrip (c : ChunkData) (x y z : Nat) :
    (ChunkData.from_raw (ChunkData.to_raw c)).get x y z = c.get x y z := rfl

/-- Claim C6 (confirmed): a divergent write into uniform storage promotes to
paletted form via a palette seeded with the old uniform value at ref-count
size, 2-bit indices and capacity 4, then retries the set; afterwards the
written slot reads the new value and every other in-range slot the old
one. -/
theorem C6_promotion_on_divergence (size : Nat) (u v : BlockData) (i : Nat)
    (hi : i < size) (hv : v ≠ u) :
    Storage.set (Storage.Single ⟨size, u⟩) i v =
      Storage.Multi ((MultiStorage.new size u).setVoxel i v) ∧
    ChunkData.is_uniform ⟨Storage.set (Storage.Single ⟨size, u⟩) i v, 0, false⟩ = false ∧
    (MultiStorage.new size u).palette = [⟨u, size⟩] ∧
    (MultiStorage.new size u).indices_length = 2 ∧
    (MultiStorage.new size u).palette_capacity = 4 ∧
    (Storage.set (Storage.Single ⟨size, u⟩) i v).get i = some v ∧
    (∀ j, j < size → j ≠ i →
      (Storage.set (Storage.Single ⟨size, u⟩) i v).get j = some u) := by
  have heq : Storage.set (Storage.Single ⟨size, u⟩) i v =
      Storage.Multi ((MultiStorage.new size u).setVoxel i v) :=
    if_pos (Ne.symm hv)
  have hinv := Storage.set_Inv (Storage.Single ⟨size, u⟩) size (fun _ => u)
    ⟨rfl, fun _ _ => rfl⟩ i hi v
  have hget : ∀ j, j < size →
      (Storage.set (Storage.Single ⟨size, u⟩) i v).get j =
        some (writeAt (fun _ => u) i v j) :=
    fun j hj => Storage.get_Inv _ size _ hinv j hj
  refine ⟨heq, by rw [heq]; rfl, rfl, rfl, rfl, ?_, ?_⟩
  · rw [hget i hi, writeAt_self]
  · intro j hj hji
    rw [hget j hj, writeAt_ne _ _ _ _ hji]

theorem C6_witness :
    (Storage.set (Storage.Single ⟨2, BlockData.default⟩) 0
      (BlockData.new "vinox" "stone")).get 0 = some (BlockData.new "vinox" "stone") ∧
    (Storage.set (Storage.Single ⟨2, BlockData.default⟩) 0
      (BlockData.new "vinox" "stone")).get 1 = some BlockData.default := by
  have h := C6_promotion_on_divergence 2 BlockData.default
    (BlockData.new "vinox" "stone") 0 (by omega) (by decide)
  exact ⟨h.2.2.2.2.2.1, h.2.2.2.2.2.2 1 (by omega) (by omega)⟩

/-- Claim C7 (confirmed): after any sequence of in-range sets — including
those that force palette growth — every in-range slot reads the value most
recently set there (or the initial default); growth itself doubles the index
bit-width and re-encodes every slot's existing index into the fresh wider
buffer, preserving all decoded indices. -/
theorem C7_growth_preserves_values :
    (∀ (size : Nat) (ops : List (Nat × BlockData)), (∀ op ∈ ops, op.1 < size) →
      ∀ i, i < size →
        (setList (Storage.new size) ops).get i = some (modelRun ops i)) ∧
    (∀ m : MultiStorage, 0 < m.indices_length →
      m.data.bytes.length = m.size * m.indices_length →
      (m.grow_palette).indices_length = 2 * m.indices_length ∧
      (∀ i, i < m.size → (m.grow_palette).slot i = m.slot i)) := by
  constructor
  · intro size ops hops i hi
    exact setList_get size ops hops i hi
  · intro m h1 h2
    obtain ⟨-, -, hL, -, -, hslot⟩ := MultiStorage.grow_palette_spec m h1 h2
    exact ⟨by rw [hL]; exact Nat.mul_comm _ _, hslot⟩

theorem C7_witness :
    (∀ op ∈ opsGrow, op.1 < 8) ∧
    (setList (Storage.new 8) opsGrow).get 0 = some (BlockData.new "vinox" "a") ∧
    (setList (Storage.new 8) opsGrow).get 7 = some BlockData.default ∧
    ((MultiStorage.new 1 BlockData.default).grow_palette).indices_length = 2 * 2 := by
  refine ⟨by decide, ?_, ?_, ?_⟩
  · rw [C7_growth_preserves_values.1 8 opsGrow (by decide) 0 (by omega)]
    decide
  · rw [C7_growth_preserves_values.1 8 opsGrow (by decide) 7 (by omega)]
    decide
  · exact (C7_growth_preserves_values.2 (MultiStorage.new 1 BlockData.default)
      (by decide) (by decide)).1

/-- Claim C8 (corrected): every set marks the chunk dirty and advances the
write counter, but the storage trim and the counter reset fire only when the
incremented counter exceeds 500 — on the 501st write since the last reset —
not when a threshold of 500 writes is reached. -/
theorem C8_set_counter_dirty_trim (c : ChunkData) (x y z : Nat) (v : BlockData) :
    (c.set x y z v).dirty = true ∧
    (c.set x y z v).change_count =
      (if c.change_count + 1 > 500 then 0 else c.change_count + 1) ∧
    (c.set x y z v).voxels =
      (if c.change_count + 1 > 500 then
        (c.voxels.set (ChunkData.linearize x y z) v).trim
       else c.voxels.set (ChunkData.linearize x y z) v) := by
  by_cases h : c.change_count + 1 > 500
  · obtain ⟨h1, h2, h3⟩ := ChunkData.set_above_threshold c x y z v (by omega)
    rw [if_pos h, if_pos h]
    exact ⟨h3, h1, h2⟩
  · obtain ⟨h1, h2, h3⟩ := ChunkData.set_below_threshold c x y z v (by omega)
    rw [if_neg h, if_neg h]
    exact ⟨h3, h1, h2⟩

/-- Claim C8 counterexample: after exactly 500 writes since the last trim —
the claimed threshold being reached — the counter stands at 500 and has not
been reset; the reset (and trim) happen only on the 501st write. -/
theorem C8_counterexample :
    (airWrite^[500] ChunkData.default).change_count = 500 ∧
    (airWrite^[500] ChunkData.default).change_count ≠ 0 ∧
    (airWrite^[501] ChunkData.default).change_count = 0 := by
  obtain ⟨h1, h2⟩ := airWrite_iterate 500 (le_refl _)
  refine ⟨h1, by omega, ?_⟩
  rw [show (501 : Nat) = 500 + 1 from rfl, Function.iterate_succ_apply']
  have hstep := ChunkData.set_above_threshold (airWrite^[500] ChunkData.default) 0 0 0
    BlockData.default (by omega)
  exact hstep.1

/-- Claim C9 (confirmed): a value-level no-op write — setting a uniform
chunk's voxel to the value it already holds — leaves the storage unchanged
yet still sets the dirty flag and still advances the write counter exactly
like any other write (counting toward the 500-write trim threshold, with the
same reset-past-500 rule). -/
theorem C9_noop_write_counts (size cc : Nat) (d : Bool) (u : BlockData) (x y z : Nat) :
    ((⟨Storage.Single ⟨size, u⟩, cc, d⟩ : ChunkData).set x y z u).voxels =
      Storage.Single ⟨size, u⟩ ∧
    ((⟨Storage.Single ⟨size, u⟩, cc, d⟩ : ChunkData).set x y z u).dirty = true ∧
    ((⟨Storage.Single ⟨size, u⟩, cc, d⟩ : ChunkData).set x y z u).change_count =
      (if cc + 1 > 500 then 0 else cc + 1) := by
  have hsv : (Storage.Single ⟨size, u⟩ : Storage).set (ChunkData.linearize x y z) u =
      Storage.Single ⟨size, u⟩ := Storage.set_same_single size u _
  simp only [ChunkData.set, hsv]
  split_ifs with h <;> exact ⟨rfl, rfl, rfl⟩

/-- Claim C10 (confirmed): in uniform form, get performs no bounds check and
returns the uniform value for every index, including indices at or beyond
the logical size; a bounds failure (none, a panic in Rust) can only arise in
paletted form, here from the bit-buffer slice of an out-of-range slot. -/
theorem C10_uniform_get_unchecked :
    (∀ (size : Nat) (u : BlockData) (idx : Nat),
      Storage.get (Storage.Single ⟨size, u⟩) idx = some u) ∧
    Storage.get (Storage.Single ⟨TOTAL_CHUNK_SIZE, BlockData.default⟩)
      (TOTAL_CHUNK_SIZE + 7) = some BlockData.default ∧
    Storage.get (Storage.Multi (MultiStorage.new 2 BlockData.default)) 5 = none := by
  refine ⟨fun _ _ _ => rfl, rfl, ?_⟩
  decide

end Vinox
